import Mathlib

/-!
Verification of the event-trace extraction subsystem
(`financial_advisor/response_extractor.py`).

The Python values flowing through the extractor (JSON-decoded event
records) are embedded as the inductive type `PyVal`.  Each Python
primitive the source uses (`d.get`, `x in y`, subscripting, iteration)
is embedded as a total function into `PyRes`, whose `exn` constructor
stands for a raised exception; the source's `try/except Exception:
continue` blocks become explicit `exn` handling in the translated
control flow.  The three public operations are total Lean functions, so
the source's outer catch-all branches (which are unreachable for list
input) have no residue here.
-/

inductive PyVal where
  | none : PyVal
  | bool (b : Bool) : PyVal
  | int (n : Int) : PyVal
  | str (s : String) : PyVal
  | list (xs : List PyVal) : PyVal
  | dict (xs : List (String × PyVal)) : PyVal

mutual

def PyVal.decEq : (a b : PyVal) → Decidable (a = b)
  | .none, .none => isTrue rfl
  | .bool a, .bool b =>
    if h : a = b then isTrue (by rw [h]) else isFalse (fun hh => by cases hh; exact h rfl)
  | .int a, .int b =>
    if h : a = b then isTrue (by rw [h]) else isFalse (fun hh => by cases hh; exact h rfl)
  | .str a, .str b =>
    if h : a = b then isTrue (by rw [h]) else isFalse (fun hh => by cases hh; exact h rfl)
  | .list xs, .list ys =>
    match PyVal.decEqList xs ys with
    | isTrue h => isTrue (by rw [h])
    | isFalse h => isFalse (fun hh => by cases hh; exact h rfl)
  | .dict xs, .dict ys =>
    match PyVal.decEqDict xs ys with
    | isTrue h => isTrue (by rw [h])
    | isFalse h => isFalse (fun hh => by cases hh; exact h rfl)
  | .none, .bool _ => isFalse (by intro h; cases h)
  | .none, .int _ => isFalse (by intro h; cases h)
  | .none, .str _ => isFalse (by intro h; cases h)
  | .none, .list _ => isFalse (by intro h; cases h)
  | .none, .dict _ => isFalse (by intro h; cases h)
  | .bool _, .none => isFalse (by intro h; cases h)
  | .bool _, .int _ => isFalse (by intro h; cases h)
  | .bool _, .str _ => isFalse (by intro h; cases h)
  | .bool _, .list _ => isFalse (by intro h; cases h)
  | .bool _, .dict _ => isFalse (by intro h; cases h)
  | .int _, .none => isFalse (by intro h; cases h)
  | .int _, .bool _ => isFalse (by intro h; cases h)
  | .int _, .str _ => isFalse (by intro h; cases h)
  | .int _, .list _ => isFalse (by intro h; cases h)
  | .int _, .dict _ => isFalse (by intro h; cases h)
  | .str _, .none => isFalse (by intro h; cases h)
  | .str _, .bool _ => isFalse (by intro h; cases h)
  | .str _, .int _ => isFalse (by intro h; cases h)
  | .str _, .list _ => isFalse (by intro h; cases h)
  | .str _, .dict _ => isFalse (by intro h; cases h)
  | .list _, .none => isFalse (by intro h; cases h)
  | .list _, .bool _ => isFalse (by intro h; cases h)
  | .list _, .int _ => isFalse (by intro h; cases h)
  | .list _, .str _ => isFalse (by intro h; cases h)
  | .list _, .dict _ => isFalse (by intro h; cases h)
  | .dict _, .none => isFalse (by intro h; cases h)
  | .dict _, .bool _ => isFalse (by intro h; cases h)
  | .dict _, .int _ => isFalse (by intro h; cases h)
  | .dict _, .str _ => isFalse (by intro h; cases h)
  | .dict _, .list _ => isFalse (by intro h; cases h)

def PyVal.decEqList : (xs ys : List PyVal) → Decidable (xs = ys)
  | [], [] => isTrue rfl
  | x :: xs, y :: ys =>
    match PyVal.decEq x y, PyVal.decEqList xs ys with
    | isTrue h1, isTrue h2 => isTrue (by rw [h1, h2])
    | isFalse h1, _ => isFalse (fun hh => by cases hh; exact h1 rfl)
    | _, isFalse h2 => isFalse (fun hh => by cases hh; exact h2 rfl)
  | [], _ :: _ => isFalse (by intro h; cases h)
  | _ :: _, [] => isFalse (by intro h; cases h)

def PyVal.decEqDict : (xs ys : List (String × PyVal)) → Decidable (xs = ys)
  | [], [] => isTrue rfl
  | (k, x) :: xs, (k', y) :: ys =>
    match (inferInstance : DecidableEq String) k k', PyVal.decEq x y, PyVal.decEqDict xs ys with
    | isTrue h0, isTrue h1, isTrue h2 => isTrue (by rw [h0, h1, h2])
    | isFalse h0, _, _ => isFalse (fun hh => by cases hh; exact h0 rfl)
    | _, isFalse h1, _ => isFalse (fun hh => by cases hh; exact h1 rfl)
    | _, _, isFalse h2 => isFalse (fun hh => by cases hh; exact h2 rfl)
  | [], _ :: _ => isFalse (by intro h; cases h)
  | _ :: _, [] => isFalse (by intro h; cases h)

end

instance : DecidableEq PyVal := PyVal.decEq

/-- Result of a Python expression: a value, or a raised exception. -/
inductive PyRes (α : Type) where
  | ok (a : α) : PyRes α
  | exn : PyRes α
deriving DecidableEq

/-- Whether the value is a Python mapping (`dict`). -/
def PyVal.isDict : PyVal → Bool
  | .dict _ => true
  | _ => false

/-- Whether the value is Python text (`str`). -/
def PyVal.isStr : PyVal → Bool
  | .str _ => true
  | _ => false

/-- First binding of key `k` in a Python dict's entry list (`d[k]` when present). -/
def dictLookup : List (String × PyVal) → String → Option PyVal
  | [], _ => Option.none
  | p :: d, k => if p.1 = k then some p.2 else dictLookup d k

/-- Whether `needle` occurs as a contiguous substring of `hay` (Python `sub in s`). -/
def strHas (hay needle : List Char) : Bool :=
  (List.range (hay.length + 1)).any (fun i => List.isPrefixOf needle (hay.drop i))

/-- Python `k in v` for a string key `k`: dict key membership, substring test on
text, element equality on a list; `TypeError` on other receivers. -/
def pyContains (v : PyVal) (k : String) : PyRes Bool :=
  match v with
  | .dict d => .ok ((dictLookup d k).isSome)
  | .str s => .ok (strHas s.data k.data)
  | .list xs => .ok (xs.any (fun e => match e with | .str s => s == k | _ => false))
  | _ => .exn

/-- Python `v[k]` for a string key: dict lookup (`KeyError` when missing);
`TypeError` on non-dict receivers. -/
def pySub (v : PyVal) (k : String) : PyRes PyVal :=
  match v with
  | .dict d =>
    match dictLookup d k with
    | some x => .ok x
    | Option.none => .exn
  | _ => .exn

/-- Python `v.get(k)`: `None` default; `AttributeError` on non-dict receivers. -/
def pyGet (v : PyVal) (k : String) : PyRes PyVal :=
  match v with
  | .dict d => .ok ((dictLookup d k).getD PyVal.none)
  | _ => .exn

/-- Python `v.get(k, dflt)`; `AttributeError` on non-dict receivers. -/
def pyGetD (v : PyVal) (k : String) (dflt : PyVal) : PyRes PyVal :=
  match v with
  | .dict d => .ok ((dictLookup d k).getD dflt)
  | _ => .exn

/-- Python `for x in v`: list elements, characters of a string (as 1-char
strings), keys of a dict; `TypeError` otherwise. -/
def pyIter (v : PyVal) : PyRes (List PyVal) :=
  match v with
  | .list xs => .ok xs
  | .str s => .ok (s.data.map (fun c => PyVal.str (String.mk [c])))
  | .dict d => .ok (d.map (fun p => PyVal.str p.1))
  | _ => .exn

/-- Python `str.isspace` / regex `\s` on ASCII: the six whitespace characters. -/
def isWS (c : Char) : Bool :=
  c == ' ' || c == '\t' || c == '\n' || c == '\r' || c == Char.ofNat 11 || c == Char.ofNat 12

/-- Python `str.strip()`: drop leading and trailing whitespace. -/
def stripChars (l : List Char) : List Char :=
  ((l.dropWhile isWS).reverse.dropWhile isWS).reverse

/-- Length of the maximal whitespace run at the front (`\s*`'s widest reach). -/
def countWS : List Char → Nat
  | c :: cs => if isWS c then countWS cs + 1 else 0
  | [] => 0

/-- The prefix of the input that precedes the last occurrence of the closing
fence marker; `none` when the marker does not occur.  This is where the greedy
`(.*)` of the source's `re.DOTALL` search stops: at the last closing marker of
the remaining text. -/
def closeSplit : List Char → Option (List Char)
  | c :: cs =>
    match closeSplit cs with
    | some g => some (c :: g)
    | Option.none =>
      if List.isPrefixOf ("\n```".data) (c :: cs) then some [] else Option.none
  | [] => Option.none

/-- The lengths `k` the greedy `\s*` may take after the opening marker: `k`
whitespace characters followed by the literal newline, such that a closing
marker still occurs afterwards. -/
def fenceCandidates (rest : List Char) : List Nat :=
  (List.range (countWS rest)).filter
    (fun k => rest.get? k == some '\n' && (closeSplit (rest.drop (k + 1))).isSome)

/-- Attempt of the fenced-block regex at one start position: the suffix must
begin with the opening marker `"```json"`, then `\s*\n` (greedy: the largest
viable `k`), and the capture group runs to the last closing marker. -/
def matchFenceSuffix (u : List Char) : Option (List Char) :=
  if List.isPrefixOf ("```json".data) u then
    let rest := u.drop 7
    match (fenceCandidates rest).getLast? with
    | some k => closeSplit (rest.drop (k + 1))
    | Option.none => Option.none
  else Option.none

/-- `re.search(r'```json\s*\n(.*)\n```', s, re.DOTALL)`: the capture group of
the leftmost position at which the pattern matches. -/
def fenceSearch : List Char → Option (List Char)
  | [] => Option.none
  | c :: cs =>
    match matchFenceSuffix (c :: cs) with
    | some g => some g
    | Option.none => fenceSearch cs

/-- JSON whitespace accepted between tokens by `json.loads`. -/
def isJsonWS (c : Char) : Bool :=
  c == ' ' || c == '\t' || c == '\n' || c == '\r'

/-- Drop JSON inter-token whitespace. -/
def skipJsonWS (l : List Char) : List Char := l.dropWhile isJsonWS

/-- One JSON string-escape character. -/
def escPairs : List (Char × Char) :=
  [('"', '"'), ('\\', '\\'), ('/', '/'), ('n', '\n'), ('t', '\t'), ('r', '\r'),
   ('b', Char.ofNat 8), ('f', Char.ofNat 12)]

def escChar (c : Char) : Option Char :=
  (escPairs.find? (fun p => p.1 == c)).map (fun p => p.2)

/-- Body of a JSON string after the opening quote: the decoded characters and
the rest of the input after the closing quote. -/
def parseStringBody : List Char → Option (List Char × List Char)
  | [] => Option.none
  | '"' :: rest => some ([], rest)
  | '\\' :: c :: rest =>
    match escChar c with
    | some e =>
      match parseStringBody rest with
      | some (cs, r) => some (e :: cs, r)
      | Option.none => Option.none
    | Option.none => Option.none
  | ['\\'] => Option.none
  | c :: rest =>
    match parseStringBody rest with
    | some (cs, r) => some (c :: cs, r)
    | Option.none => Option.none

/-- Leading run of decimal digits and the rest. -/
def takeDigits : List Char → List Char × List Char
  | c :: rest =>
    if c.isDigit then
      match takeDigits rest with
      | (ds, r) => (c :: ds, r)
    else ([], c :: rest)
  | [] => ([], [])

/-- Numeric value of a digit run. -/
def digitsVal (ds : List Char) : Nat :=
  ds.foldl (fun a c => a * 10 + (c.toNat - 48)) 0

/-- Python-dict insertion: a repeated key keeps its position and takes the new
value, a fresh key is appended. -/
def objInsert (d : List (String × PyVal)) (k : String) (v : PyVal) : List (String × PyVal) :=
  if (dictLookup d k).isSome then
    d.map (fun p => if p.1 = k then (p.1, v) else p)
  else d ++ [(k, v)]

mutual

/-- One JSON value (objects, arrays, strings, integers, booleans, null),
returning the rest of the input.  Models the grammar `json.loads` accepts on
the payloads the extractor handles; non-integer numerals are rejected. -/
def parseJsonVal : Nat → List Char → Option (PyVal × List Char)
  | 0, _ => Option.none
  | Nat.succ f, l =>
    match skipJsonWS l with
    | '[' :: rest =>
      (match skipJsonWS rest with
       | ']' :: rest2 => some (.list [], rest2)
       | _ => parseJsonArr f [] rest)
    | '{' :: rest =>
      (match skipJsonWS rest with
       | '}' :: rest2 => some (.dict [], rest2)
       | _ => parseJsonObj f [] rest)
    | '"' :: rest =>
      (match parseStringBody rest with
       | some (cs, r) => some (.str (String.mk cs), r)
       | Option.none => Option.none)
    | 't' :: 'r' :: 'u' :: 'e' :: rest => some (.bool true, rest)
    | 'f' :: 'a' :: 'l' :: 's' :: 'e' :: rest => some (.bool false, rest)
    | 'n' :: 'u' :: 'l' :: 'l' :: rest => some (.none, rest)
    | '-' :: rest =>
      (match takeDigits rest with
       | ([], _) => Option.none
       | (ds, r) =>
         match r with
         | '.' :: _ => Option.none
         | 'e' :: _ => Option.none
         | 'E' :: _ => Option.none
         | _ => some (.int (-(Int.ofNat (digitsVal ds))), r))
    | c :: rest =>
      if c.isDigit then
        match takeDigits (c :: rest) with
        | (ds, r) =>
          match r with
          | '.' :: _ => Option.none
          | 'e' :: _ => Option.none
          | 'E' :: _ => Option.none
          | _ => some (.int (Int.ofNat (digitsVal ds)), r)
      else Option.none
    | [] => Option.none

/-- Elements of a JSON array after at least one element is required. -/
def parseJsonArr : Nat → List PyVal → List Char → Option (PyVal × List Char)
  | 0, _, _ => Option.none
  | Nat.succ f, acc, l =>
    match parseJsonVal f l with
    | some (v, rest) =>
      (match skipJsonWS rest with
       | ',' :: rest2 => parseJsonArr f (acc ++ [v]) rest2
       | ']' :: rest2 => some (.list (acc ++ [v]), rest2)
       | _ => Option.none)
    | Option.none => Option.none

/-- Members of a JSON object after at least one member is required. -/
def parseJsonObj : Nat → List (String × PyVal) → List Char → Option (PyVal × List Char)
  | 0, _, _ => Option.none
  | Nat.succ f, acc, l =>
    match skipJsonWS l with
    | '"' :: rest =>
      (match parseStringBody rest with
       | some (kcs, r1) =>
         (match skipJsonWS r1 with
          | ':' :: r2 =>
            (match parseJsonVal f r2 with
             | some (v, r3) =>
               (match skipJsonWS r3 with
                | ',' :: r4 => parseJsonObj f (objInsert acc (String.mk kcs) v) r4
                | '}' :: r4 => some (.dict (objInsert acc (String.mk kcs) v), r4)
                | _ => Option.none)
             | Option.none => Option.none)
          | _ => Option.none)
       | Option.none => Option.none)
    | _ => Option.none

end

/-- `json.loads` on decoded text: one JSON value with nothing but whitespace
around it, else a `JSONDecodeError` (modelled as `none`). -/
def jsonLoads (l : List Char) : Option PyVal :=
  match parseJsonVal (2 * l.length + 4) l with
  | some (v, rest) => if skipJsonWS rest = [] then some v else Option.none
  | Option.none => Option.none

/-- The guard of `extract_financial_coordinator_output`'s scan loop
(`response_extractor.py` lines 37-43): author equality, `"actions" in entry`,
`"stateDelta" in entry["actions"]`, key presence, then the raw value.
`.ok (some raw)` means the whole condition held; `.ok none` means one
conjunct was `False`; `.exn` means a conjunct raised. -/
def fcRawE (entry : PyVal) : PyRes (Option PyVal) :=
  match pyGet entry "author" with
  | .exn => .exn
  | .ok author =>
    if author = PyVal.str "financial_coordinator" then
      match pyContains entry "actions" with
      | .exn => .exn
      | .ok false => .ok Option.none
      | .ok true =>
        match pySub entry "actions" with
        | .exn => .exn
        | .ok actions =>
          match pyContains actions "stateDelta" with
          | .exn => .exn
          | .ok false => .ok Option.none
          | .ok true =>
            match pySub actions "stateDelta" with
            | .exn => .exn
            | .ok sd =>
              match pyContains sd "financial_coordinator_output" with
              | .exn => .exn
              | .ok false => .ok Option.none
              | .ok true =>
                match pySub sd "financial_coordinator_output" with
                | .exn => .exn
                | .ok raw => .ok (some raw)
    else .ok Option.none

/-- The decode step of the targeted extractor (lines 46-50): `re.search` of
the fenced block (a `TypeError` on non-text input), then `json.loads` on the
stripped capture (a `JSONDecodeError` on malformed JSON).  `.ok none` is the
fall-through when no fence is found (the loop then continues). -/
def targetedDecode (raw : PyVal) : PyRes (Option PyVal) :=
  match raw with
  | .str s =>
    (match fenceSearch s.data with
     | some g =>
       (match jsonLoads (stripChars g) with
        | some v => .ok (some v)
        | Option.none => .exn)
     | Option.none => .ok Option.none)
  | _ => .exn

/-- Per-entry body of `extract_financial_coordinator_output`'s scan loop
(`response_extractor.py` lines 36-53): the guard, then the decode of the raw
value.  `.ok (some v)` is the loop's `return parsed_output`; `.ok none` falls
through to the next entry; `.exn` is an exception the inner
`except Exception: continue` absorbs. -/
def processEntry (entry : PyVal) : PyRes (Option PyVal) :=
  match fcRawE entry with
  | .ok (some raw) => targetedDecode raw
  | .ok Option.none => .ok Option.none
  | .exn => .exn

/-- The value an entry makes the reverse scan return, if any: a full guard
match whose raw value decodes. -/
def decodedMatch (e : PyVal) : Option PyVal :=
  match processEntry e with
  | .ok (some v) => some v
  | _ => Option.none

/-- `extract_financial_coordinator_output` (`response_extractor.py` lines
20-58): scan the trace most-recent-first and return the first entry's decoded
coordinator output. -/
def extract_financial_coordinator_output (response_data : List PyVal) : Option PyVal :=
  response_data.reverse.findSome? decodedMatch

/-- The fixed output-key registry of `extract_all_agent_outputs`
(`response_extractor.py` lines 72-78), in insertion order. -/
def outputKeys : List String :=
  ["data_analyst_output", "trading_analyst_output", "risk_analyst_output",
   "execution_analyst_output", "financial_coordinator_output"]

/-- The initial `outputs` dict: every registry key mapped to `None`. -/
def initOutputs : List (String × PyVal) :=
  outputKeys.map (fun k => (k, PyVal.none))

/-- Python dict assignment `outputs[k] = v` for a key already present. -/
def stSet (st : List (String × PyVal)) (k : String) (v : PyVal) : List (String × PyVal) :=
  st.map (fun p => if p.1 = k then (p.1, v) else p)

/-- The aggregate decode (`response_extractor.py` lines 90-102): fenced JSON
when text carries the markers, raw text as fallback on a missing fence or a
`JSONDecodeError`, non-text values unchanged. -/
def decodeAggregate (raw : PyVal) : PyVal :=
  match raw with
  | .str s =>
    (match fenceSearch s.data with
     | some g =>
       (match jsonLoads (stripChars g) with
        | some v => v
        | Option.none => raw)
     | Option.none => raw)
  | _ => raw

/-- The `for key in outputs.keys()` loop of `extract_all_agent_outputs`
(lines 86-102) over one entry's `state_delta`: a key found unresolved is
assigned its decoded value; an exception ends the entry's loop but keeps the
assignments already made (the inner `except` continues with the next entry). -/
def updateKeys (sd : PyVal) : List String → List (String × PyVal) → List (String × PyVal)
  | [], st => st
  | k :: ks, st =>
    match pyContains sd k with
    | .exn => st
    | .ok false => updateKeys sd ks st
    | .ok true =>
      if dictLookup st k = some PyVal.none then
        match pySub sd k with
        | .exn => st
        | .ok raw => updateKeys sd ks (stSet st k (decodeAggregate raw))
      else updateKeys sd ks st

/-- The `"actions" in entry and "stateDelta" in entry["actions"]` guard shared
by the aggregate extractor (lines 82-83): the `state_delta` the entry exposes,
`none` when the guard fails or raises. -/
def eventSD (entry : PyVal) : Option PyVal :=
  match pyContains entry "actions" with
  | .exn => Option.none
  | .ok false => Option.none
  | .ok true =>
    match pySub entry "actions" with
    | .exn => Option.none
    | .ok actions =>
      match pyContains actions "stateDelta" with
      | .exn => Option.none
      | .ok false => Option.none
      | .ok true =>
        match pySub actions "stateDelta" with
        | .exn => Option.none
        | .ok sd => some sd

/-- One entry of the aggregate extractor's forward scan (lines 80-105). -/
def processEntryAll (st : List (String × PyVal)) (entry : PyVal) : List (String × PyVal) :=
  match eventSD entry with
  | some sd => updateKeys sd outputKeys st
  | Option.none => st

/-- `extract_all_agent_outputs` (`response_extractor.py` lines 61-110):
forward scan filling the fixed registry, first resolution winning. -/
def extract_all_agent_outputs (response_data : List PyVal) : List (String × PyVal) :=
  response_data.foldl processEntryAll initOutputs

/-- One record of the summary's `agent_calls` list (lines 141-145). -/
structure AgentCall where
  entry_index : Nat
  function_name : PyVal
  author : PyVal
deriving DecidableEq

/-- The summary dict built by `extract_conversation_summary` (lines 124-129). -/
structure ConvSummary where
  total_entries : Nat
  authors : List PyVal
  agent_calls : List AgentCall
  final_output_found : Bool
deriving DecidableEq

/-- The `for part in parts` loop (lines 138-145): parts carrying a
`functionCall` append a call record; an exception ends the entry's processing
but keeps records already appended. The flag reports that abort. -/
def partsLoop (i : Nat) (author : PyVal) : List PyVal → List AgentCall × Bool
  | [] => ([], false)
  | p :: ps =>
    match pyContains p "functionCall" with
    | .exn => ([], true)
    | .ok false => partsLoop i author ps
    | .ok true =>
      match pySub p "functionCall" with
      | .exn => ([], true)
      | .ok fc =>
        match pyGetD fc "name" (PyVal.str "unknown") with
        | .exn => ([], true)
        | .ok nm =>
          ({ entry_index := i, function_name := nm, author := author } :: (partsLoop i author ps).1,
           (partsLoop i author ps).2)

/-- The `"content" in entry and "parts" in entry["content"]` check plus the
parts loop (lines 137-145), for one entry. -/
def entryCalls (i : Nat) (author : PyVal) (entry : PyVal) : List AgentCall × Bool :=
  match pyContains entry "content" with
  | .exn => ([], true)
  | .ok false => ([], false)
  | .ok true =>
    match pySub entry "content" with
    | .exn => ([], true)
    | .ok content =>
      match pyContains content "parts" with
      | .exn => ([], true)
      | .ok false => ([], false)
      | .ok true =>
        match pySub content "parts" with
        | .exn => ([], true)
        | .ok parts =>
          match pyIter parts with
          | .exn => ([], true)
          | .ok elems => partsLoop i author elems

/-- The final-output check of the summarizer (lines 148-154) on one entry. -/
def finalGuard (author : PyVal) (entry : PyVal) : PyRes Bool :=
  if author = PyVal.str "financial_coordinator" then
    match pyContains entry "actions" with
    | .exn => .exn
    | .ok false => .ok false
    | .ok true =>
      match pySub entry "actions" with
      | .exn => .exn
      | .ok actions =>
        match pyContains actions "stateDelta" with
        | .exn => .exn
        | .ok false => .ok false
        | .ok true =>
          match pySub actions "stateDelta" with
          | .exn => .exn
          | .ok sd => pyContains sd "financial_coordinator_output"
  else .ok false

/-- One entry of the summarizer's loop (lines 131-157): record the author,
collect call records, then set the final-output flag — unless an exception cut
the entry short first. -/
def stepEntry (i : Nat) (acc : ConvSummary) (entry : PyVal) : ConvSummary :=
  match pyGetD entry "author" (PyVal.str "unknown") with
  | .exn => acc
  | .ok author =>
    let withAuthor : ConvSummary := { acc with authors := acc.authors ++ [author] }
    let withCalls : ConvSummary :=
      { withAuthor with agent_calls := withAuthor.agent_calls ++ (entryCalls i author entry).1 }
    if (entryCalls i author entry).2 then withCalls
    else
      match finalGuard author entry with
      | .ok true => { withCalls with final_output_found := true }
      | _ => withCalls

/-- The summarizer's enumerated scan. -/
def summarizeLoop (i : Nat) (acc : ConvSummary) : List PyVal → ConvSummary
  | [] => acc
  | e :: es => summarizeLoop (i + 1) (stepEntry i acc e) es

/-- `extract_conversation_summary` (`response_extractor.py` lines 113-162). -/
def extract_conversation_summary (response_data : List PyVal) : ConvSummary :=
  summarizeLoop 0
    { total_entries := response_data.length, authors := [], agent_calls := [],
      final_output_found := false }
    response_data

/-- The raw value the targeted extractor's guard exposes on an entry, when the
guard passes without raising. -/
def fcRaw (entry : PyVal) : Option PyVal :=
  match fcRawE entry with
  | .ok (some raw) => some raw
  | _ => Option.none

/-- The decoded value an entry contributes to the aggregate extractor for key
`k` when `k` is still unresolved: the guard must expose a `stateDelta` that is
a dict carrying `k` (a non-dict `stateDelta` never stores anything — its
subscript raises before any assignment). -/
def providesValue (e : PyVal) (k : String) : Option PyVal :=
  match eventSD e with
  | some (.dict d) =>
    (match dictLookup d k with
     | some raw => some (decodeAggregate raw)
     | Option.none => Option.none)
  | _ => Option.none

/-- Reference description of the aggregate extractor's per-key outcome: the
first chronological contribution whose decoded value is not `None` wins;
contributions of `None` leave the key open. -/
def resolvedValue (k : String) : List PyVal → PyVal
  | [] => PyVal.none
  | e :: t =>
    match providesValue e k with
    | some v => if v = PyVal.none then resolvedValue k t else v
    | Option.none => resolvedValue k t

/-- What one aggregate-scan step does to the stored value of key `k`. -/
def stepKeyVal (sd : PyVal) (k : String) (cur : PyVal) : PyVal :=
  match sd with
  | .dict d =>
    if cur = PyVal.none then
      match dictLookup d k with
      | some raw => decodeAggregate raw
      | Option.none => cur
    else cur
  | _ => cur

/-- One trace event's effect on the stored value of key `k`. -/
def stepAgg (k : String) (cur : PyVal) (e : PyVal) : PyVal :=
  match eventSD e with
  | some sd => stepKeyVal sd k cur
  | Option.none => cur

/-- The author value the summarizer records for an entry, if any:
`entry.get("author", "unknown")`, which raises (recording nothing) on
non-dict entries. -/
def authorRes (e : PyVal) : Option PyVal :=
  match pyGetD e "author" (PyVal.str "unknown") with
  | .ok a => some a
  | .exn => Option.none

/-- The authors a trace segment appends to the summary. -/
def authorsSeg (l : List PyVal) : List PyVal :=
  l.filterMap authorRes

/-- An `agent_calls` record without its entry index. -/
def callView (c : AgentCall) : PyVal × PyVal :=
  (c.function_name, c.author)

/-- The index-free call records a trace segment appends to the summary. -/
def callsSeg : List PyVal → List (PyVal × PyVal)
  | [] => []
  | e :: es =>
    (match authorRes e with
     | some a => (entryCalls 0 a e).1.map callView
     | Option.none => []) ++ callsSeg es

/-- Whether one entry turns the summary's `final_output_found` flag on: its
author must be recorded, its call collection must not have raised, and the
final-output guard must hold. -/
def entrySetsFlag (e : PyVal) : Bool :=
  match authorRes e with
  | some a =>
    !(entryCalls 0 a e).2 &&
      (match finalGuard a e with | .ok true => true | _ => false)
  | Option.none => false

/-- Whether some entry of a trace segment sets the final-output flag. -/
def flagSeg (l : List PyVal) : Bool :=
  l.any entrySetsFlag

/-- Restriction of a `stateDelta` value to the registry keys (non-dict values
unchanged). -/
def restrictSD : PyVal → PyVal
  | .dict d => .dict (d.filter (fun p => outputKeys.contains p.1))
  | v => v

/-- Restriction of an event: its `actions.stateDelta` mapping, when the
aggregate guard can reach one, is filtered to the registry keys; anything
else is untouched. -/
def restrictEvent (e : PyVal) : PyVal :=
  match e with
  | .dict d =>
    (match dictLookup d "actions" with
     | some (.dict a) =>
       (match dictLookup a "stateDelta" with
        | some sd =>
          .dict (stSet d "actions" (.dict (stSet a "stateDelta" (restrictSD sd))))
        | Option.none => e)
     | _ => e)
  | _ => e

/-- An event of the shape the agents emit: an author and one `stateDelta`
output key. -/
def mkAgentEvent (author key : String) (value : PyVal) : PyVal :=
  .dict [("author", .str author),
         ("actions", .dict [("stateDelta", .dict [(key, value)])])]

/-- A coordinator event whose output key holds the given text. -/
def mkFCEvent (payload : String) : PyVal :=
  mkAgentEvent "financial_coordinator" "financial_coordinator_output" (.str payload)

/-- The author value the summarizer records for a dict-shaped event:
`entry.get("author", "unknown")`. -/
def authorView : PyVal → PyVal
  | .dict d => (dictLookup d "author").getD (PyVal.str "unknown")
  | _ => PyVal.str "unknown"

theorem processEntry_eq_targetedDecode {e raw : PyVal} (h : fcRaw e = some raw) :
    processEntry e = targetedDecode raw := by
  unfold fcRaw at h
  unfold processEntry
  cases hfc : fcRawE e with
  | exn => rw [hfc] at h; simp at h
  | ok o =>
    cases o with
    | none => rw [hfc] at h; simp at h
    | some r => rw [hfc] at h; simp at h; subst h; rfl

theorem decodedMatch_eq (e : PyVal) : decodedMatch e =
    (match fcRaw e with
     | some raw =>
       (match targetedDecode raw with
        | .ok (some v) => some v
        | _ => Option.none)
     | Option.none => Option.none) := by
  unfold decodedMatch processEntry fcRaw
  cases hfc : fcRawE e with
  | exn => rfl
  | ok o => cases o with
    | none => rfl
    | some r => rfl

theorem extractFC_none_iff (t : List PyVal) :
    extract_financial_coordinator_output t = Option.none ↔
      ∀ e ∈ t, decodedMatch e = Option.none := by
  simp [extract_financial_coordinator_output, List.findSome?_eq_none_iff, List.mem_reverse]

theorem findSome?_eq_some_split {α β : Type} (f : α → Option β) :
    ∀ (l : List α) (v : β), l.findSome? f = some v ↔
      ∃ l1 x l2, l = l1 ++ x :: l2 ∧ f x = some v ∧ ∀ y ∈ l1, f y = Option.none := by
  intro l
  induction l with
  | nil => intro v; simp
  | cons a l ih =>
    intro v
    rw [List.findSome?_cons]
    cases hfa : f a with
    | some b =>
      simp only []
      constructor
      · intro h
        exact ⟨[], a, l, rfl, by rw [hfa]; exact h, by simp⟩
      · rintro ⟨l1, x, l2, heq, hfx, hnone⟩
        cases l1 with
        | nil =>
          simp only [List.nil_append, List.cons.injEq] at heq
          obtain ⟨rfl, rfl⟩ := heq
          rw [hfa] at hfx
          exact hfx
        | cons a' l1' =>
          simp only [List.cons_append, List.cons.injEq] at heq
          obtain ⟨rfl, _⟩ := heq
          have hcontra := hnone a (by simp)
          rw [hfa] at hcontra
          cases hcontra
    | none =>
      rw [ih]
      constructor
      · rintro ⟨l1, x, l2, rfl, hfx, hnone⟩
        refine ⟨a :: l1, x, l2, rfl, hfx, ?_⟩
        intro y hy
        rcases List.mem_cons.mp hy with rfl | hy'
        · exact hfa
        · exact hnone y hy'
      · rintro ⟨l1, x, l2, heq, hfx, hnone⟩
        cases l1 with
        | nil =>
          simp only [List.nil_append, List.cons.injEq] at heq
          obtain ⟨rfl, rfl⟩ := heq
          rw [hfa] at hfx
          cases hfx
        | cons a' l1' =>
          simp only [List.cons_append, List.cons.injEq] at heq
          obtain ⟨rfl, rfl⟩ := heq
          exact ⟨l1', x, l2, rfl, hfx, fun y hy => hnone y (List.mem_cons_of_mem _ hy)⟩

theorem extractFC_some_iff (t : List PyVal) (v : PyVal) :
    extract_financial_coordinator_output t = some v ↔
      ∃ t1 e t2, t = t1 ++ e :: t2 ∧ decodedMatch e = some v ∧
        ∀ y ∈ t2, decodedMatch y = Option.none := by
  unfold extract_financial_coordinator_output
  rw [findSome?_eq_some_split]
  constructor
  · rintro ⟨l1, x, l2, heq, hfx, hnone⟩
    refine ⟨l2.reverse, x, l1.reverse, ?_, hfx, ?_⟩
    · have h2 := congrArg List.reverse heq
      simpa [List.reverse_append, List.append_assoc] using h2
    · intro y hy
      exact hnone y (List.mem_reverse.mp hy)
  · rintro ⟨t1, e, t2, rfl, he, hnone⟩
    refine ⟨t2.reverse, e, t1.reverse, ?_, he, ?_⟩
    · simp [List.reverse_append, List.append_assoc]
    · intro y hy
      exact hnone y (List.mem_reverse.mp hy)

theorem extractFC_skip {m : PyVal} (hm : decodedMatch m = Option.none) (a b : List PyVal) :
    extract_financial_coordinator_output (a ++ m :: b) =
      extract_financial_coordinator_output (a ++ b) := by
  simp [extract_financial_coordinator_output, List.reverse_append, List.findSome?_append,
    List.findSome?_cons, hm]


theorem lookup_stSet_self (st : List (String × PyVal)) (k : String) (v : PyVal) :
    dictLookup (stSet st k v) k =
      if (dictLookup st k).isSome then some v else Option.none := by
  induction st with
  | nil => rfl
  | cons p st ih =>
    obtain ⟨k', x⟩ := p
    by_cases hk : k' = k
    · subst hk
      simp [stSet, dictLookup]
    · simp [stSet, dictLookup, hk] at *
      exact ih

theorem lookup_stSet_ne {k k' : String} (h : k' ≠ k) (st : List (String × PyVal)) (v : PyVal) :
    dictLookup (stSet st k v) k' = dictLookup st k' := by
  induction st with
  | nil => rfl
  | cons p st ih =>
    obtain ⟨k0, x⟩ := p
    by_cases h0 : k0 = k
    · subst h0
      have h1 : k0 ≠ k' := fun hh => h hh.symm
      simp [stSet, dictLookup, h1] at *
      exact ih
    · by_cases h1 : k0 = k'
      · subst h1
        simp [stSet, dictLookup, h0]
      · simp [stSet, dictLookup, h0, h1] at *
        exact ih

theorem fst_stSet (st : List (String × PyVal)) (k : String) (v : PyVal) :
    (stSet st k v).map Prod.fst = st.map Prod.fst := by
  induction st with
  | nil => rfl
  | cons p st ih =>
    obtain ⟨k0, x⟩ := p
    by_cases h0 : k0 = k <;> simp [stSet, h0] at * <;> exact ih

theorem updateKeys_nondict {sd : PyVal} (h : sd.isDict = false) :
    ∀ (ks : List String) (st : List (String × PyVal)), updateKeys sd ks st = st := by
  intro ks
  induction ks with
  | nil => intro st; rfl
  | cons k ks ih =>
    intro st
    cases sd with
    | dict d => simp [PyVal.isDict] at h
    | none => rfl
    | bool b => rfl
    | int n => rfl
    | str s =>
      simp only [updateKeys, pyContains]
      cases hb : strHas s.data k.data
      · simp [ih]
      · by_cases hl : dictLookup st k = some PyVal.none <;> simp [hl, pySub, ih]
    | list xs =>
      simp only [updateKeys, pyContains]
      cases hb : xs.any (fun e => match e with | .str s => s == k | _ => false)
      · simp [ih]
      · by_cases hl : dictLookup st k = some PyVal.none <;> simp [hl, pySub, ih]

theorem lookup_updateKeys_notmem {k : String} :
    ∀ {ks : List String}, k ∉ ks → ∀ (sd : PyVal) (st : List (String × PyVal)),
      dictLookup (updateKeys sd ks st) k = dictLookup st k := by
  intro ks
  induction ks with
  | nil => intro _ sd st; rfl
  | cons k0 ks ih =>
    intro hk sd st
    have hk0 : k ≠ k0 := fun h => hk (h ▸ List.mem_cons_self _ _)
    have hks : k ∉ ks := fun h => hk (List.mem_cons_of_mem _ h)
    cases hpc : pyContains sd k0 with
    | exn => simp [updateKeys, hpc]
    | ok b =>
      cases b
      · simp only [updateKeys, hpc]
        exact ih hks sd st
      · by_cases hl : dictLookup st k0 = some PyVal.none
        · simp only [updateKeys, hpc, hl, if_true]
          cases hps : pySub sd k0 with
          | exn => rfl
          | ok raw => rw [ih hks, lookup_stSet_ne hk0]
        · simp only [updateKeys, hpc, hl, if_false]
          exact ih hks sd st

theorem lookup_updateKeys {k : String} :
    ∀ {ks : List String}, ks.Nodup → k ∈ ks →
      ∀ (sd : PyVal) (st : List (String × PyVal)) (cur : PyVal),
        dictLookup st k = some cur →
        dictLookup (updateKeys sd ks st) k = some (stepKeyVal sd k cur) := by
  intro ks
  induction ks with
  | nil => intro _ h; cases h
  | cons k0 ks ih =>
    intro hnd hmem sd st cur hcur
    obtain ⟨hk0notin, hndks⟩ := List.nodup_cons.mp hnd
    rcases List.mem_cons.mp hmem with rfl | hmemks
    · cases sd with
      | dict d =>
        cases hd : dictLookup d k with
        | none =>
          have hfalse : pyContains (PyVal.dict d) k = .ok false := by
            simp [pyContains, hd]
          simp only [updateKeys, hfalse]
          rw [lookup_updateKeys_notmem hk0notin, hcur]
          simp only [stepKeyVal, hd]
          by_cases hc : cur = PyVal.none <;> simp [hc]
        | some raw =>
          have htrue : pyContains (PyVal.dict d) k = .ok true := by
            simp [pyContains, hd]
          by_cases hc : cur = PyVal.none
          · subst hc
            have hps : pySub (PyVal.dict d) k = .ok raw := by simp [pySub, hd]
            simp only [updateKeys, htrue, hcur, if_true, hps]
            rw [lookup_updateKeys_notmem hk0notin, lookup_stSet_self]
            simp [hcur, stepKeyVal, hd]
          · have hcond : ¬ dictLookup st k = some PyVal.none := by
              rw [hcur]
              intro hx
              exact hc (by injection hx)
            simp only [updateKeys, htrue, hcond, if_false]
            rw [lookup_updateKeys_notmem hk0notin, hcur]
            simp [stepKeyVal, hc]
      | none => rw [@updateKeys_nondict PyVal.none rfl, hcur]; rfl
      | bool b => rw [@updateKeys_nondict (PyVal.bool b) rfl, hcur]; rfl
      | int n => rw [@updateKeys_nondict (PyVal.int n) rfl, hcur]; rfl
      | str s => rw [@updateKeys_nondict (PyVal.str s) rfl, hcur]; rfl
      | list xs => rw [@updateKeys_nondict (PyVal.list xs) rfl, hcur]; rfl
    · have hne : k ≠ k0 := fun h => hk0notin (h ▸ hmemks)
      cases hpc : pyContains sd k0 with
      | exn =>
        cases sd with
        | dict d => simp [pyContains] at hpc
        | none => simp only [updateKeys, hpc]; rw [hcur]; rfl
        | bool b => simp only [updateKeys, hpc]; rw [hcur]; rfl
        | int n => simp only [updateKeys, hpc]; rw [hcur]; rfl
        | str s => simp [pyContains] at hpc
        | list xs => simp [pyContains] at hpc
      | ok b =>
        cases b
        · simp only [updateKeys, hpc]
          exact ih hndks hmemks sd st cur hcur
        · by_cases hl : dictLookup st k0 = some PyVal.none
          · simp only [updateKeys, hpc, hl, if_true]
            cases hps : pySub sd k0 with
            | exn =>
              cases sd with
              | dict d =>
                have hsome : (dictLookup d k0).isSome := by
                  simpa [pyContains] using hpc
                obtain ⟨y, hy⟩ := Option.isSome_iff_exists.mp hsome
                simp [pySub, hy] at hps
              | none => simp [pyContains] at hpc
              | bool b => simp [pyContains] at hpc
              | int n => simp [pyContains] at hpc
              | str s => rw [hcur]; rfl
              | list xs => rw [hcur]; rfl
            | ok raw =>
              refine (ih hndks hmemks sd _ cur ?_)
              rw [lookup_stSet_ne hne, hcur]
          · simp only [updateKeys, hpc, hl, if_false]
            exact ih hndks hmemks sd st cur hcur

theorem nodup_outputKeys : outputKeys.Nodup := by decide

theorem lookup_init {k : String} (h : k ∈ outputKeys) :
    dictLookup initOutputs k = some PyVal.none := by
  simp only [outputKeys, List.mem_cons, List.not_mem_nil, or_false] at h
  rcases h with rfl | rfl | rfl | rfl | rfl <;> rfl

theorem lookup_processEntryAll {k : String} (hmem : k ∈ outputKeys)
    {st : List (String × PyVal)} {cur : PyVal} (hcur : dictLookup st k = some cur)
    (e : PyVal) :
    dictLookup (processEntryAll st e) k = some (stepAgg k cur e) := by
  unfold processEntryAll stepAgg
  cases hsd : eventSD e with
  | none => simpa using hcur
  | some sd => exact lookup_updateKeys nodup_outputKeys hmem sd st cur hcur

theorem lookup_foldl {k : String} (hmem : k ∈ outputKeys) :
    ∀ (t : List PyVal) (st : List (String × PyVal)) (cur : PyVal),
      dictLookup st k = some cur →
      dictLookup (t.foldl processEntryAll st) k = some (t.foldl (stepAgg k) cur) := by
  intro t
  induction t with
  | nil => intro st cur h; simpa using h
  | cons e t ih =>
    intro st cur h
    simp only [List.foldl_cons]
    exact ih _ _ (lookup_processEntryAll hmem h e)

theorem stepAgg_of_ne {k : String} {cur : PyVal} (h : cur ≠ PyVal.none) (e : PyVal) :
    stepAgg k cur e = cur := by
  unfold stepAgg
  cases eventSD e with
  | none => rfl
  | some sd => cases sd <;> simp [stepKeyVal, h]

theorem foldl_stepAgg_ne {k : String} {cur : PyVal} (h : cur ≠ PyVal.none) :
    ∀ t : List PyVal, t.foldl (stepAgg k) cur = cur := by
  intro t
  induction t with
  | nil => rfl
  | cons e t ih => simp only [List.foldl_cons, stepAgg_of_ne h, ih]

theorem stepAgg_of_none (k : String) (e : PyVal) :
    stepAgg k PyVal.none e =
      (match providesValue e k with | some v => v | Option.none => PyVal.none) := by
  unfold stepAgg providesValue
  cases hsd : eventSD e with
  | none => rfl
  | some sd =>
    cases sd with
    | dict d =>
      simp only [stepKeyVal, if_pos rfl]
      cases hd : dictLookup d k <;> simp [hd]
    | none => rfl
    | bool b => rfl
    | int n => rfl
    | str s => rfl
    | list xs => rfl

theorem foldl_stepAgg_resolved (k : String) :
    ∀ t : List PyVal, t.foldl (stepAgg k) PyVal.none = resolvedValue k t := by
  intro t
  induction t with
  | nil => rfl
  | cons e t ih =>
    simp only [List.foldl_cons, resolvedValue]
    rw [stepAgg_of_none]
    cases hp : providesValue e k with
    | none => simpa using ih
    | some v =>
      by_cases hv : v = PyVal.none
      · subst hv; simp [ih]
      · simp [hv, foldl_stepAgg_ne hv]

theorem agg_lookup_resolved {k : String} (hmem : k ∈ outputKeys) (t : List PyVal) :
    dictLookup (extract_all_agent_outputs t) k = some (resolvedValue k t) := by
  unfold extract_all_agent_outputs
  rw [lookup_foldl hmem t initOutputs PyVal.none (lookup_init hmem),
    foldl_stepAgg_resolved]

theorem fst_updateKeys (sd : PyVal) :
    ∀ (ks : List String) (st : List (String × PyVal)),
      (updateKeys sd ks st).map Prod.fst = st.map Prod.fst := by
  intro ks
  induction ks with
  | nil => intro st; rfl
  | cons k0 ks ih =>
    intro st
    cases hpc : pyContains sd k0 with
    | exn => simp [updateKeys, hpc]
    | ok b =>
      cases b
      · simp only [updateKeys, hpc]
        exact ih st
      · by_cases hl : dictLookup st k0 = some PyVal.none
        · simp only [updateKeys, hpc, hl, if_true]
          cases hps : pySub sd k0 with
          | exn => rfl
          | ok raw => rw [ih, fst_stSet]
        · simp only [updateKeys, hpc, hl, if_false]
          exact ih st

theorem fst_foldl_processEntryAll :
    ∀ (t : List PyVal) (st : List (String × PyVal)),
      (t.foldl processEntryAll st).map Prod.fst = st.map Prod.fst := by
  intro t
  induction t with
  | nil => intro st; rfl
  | cons e t ih =>
    intro st
    simp only [List.foldl_cons]
    rw [ih]
    unfold processEntryAll
    cases eventSD e with
    | none => rfl
    | some sd => exact fst_updateKeys sd outputKeys st

theorem fst_extract_all (t : List PyVal) :
    (extract_all_agent_outputs t).map Prod.fst = outputKeys := by
  unfold extract_all_agent_outputs
  rw [fst_foldl_processEntryAll]
  simp only [initOutputs, List.map_map]
  exact List.map_id'' (fun _ => rfl) _

theorem eventSD_nondict {m : PyVal} (h : m.isDict = false) : eventSD m = Option.none := by
  cases m with
  | dict d => simp [PyVal.isDict] at h
  | none => rfl
  | bool b => rfl
  | int n => rfl
  | str s =>
    simp only [eventSD, pyContains]
    cases hb : strHas s.data "actions".data <;> simp [pySub]
  | list xs =>
    simp only [eventSD, pyContains]
    cases hb : xs.any (fun e => match e with | .str s => s == "actions" | _ => false) <;>
      simp [pySub]

theorem extractAll_skip {m : PyVal} (h : eventSD m = Option.none) (a b : List PyVal) :
    extract_all_agent_outputs (a ++ m :: b) = extract_all_agent_outputs (a ++ b) := by
  unfold extract_all_agent_outputs
  rw [List.foldl_append, List.foldl_append, List.foldl_cons]
  have hst : processEntryAll (a.foldl processEntryAll initOutputs) m =
      a.foldl processEntryAll initOutputs := by
    unfold processEntryAll
    rw [h]
  rw [hst]

theorem partsLoop_irrel (i j : Nat) (a : PyVal) :
    ∀ ps : List PyVal,
      (partsLoop i a ps).2 = (partsLoop j a ps).2 ∧
      (partsLoop i a ps).1.map callView = (partsLoop j a ps).1.map callView := by
  intro ps
  induction ps with
  | nil => exact ⟨rfl, rfl⟩
  | cons p ps ih =>
    simp only [partsLoop]
    cases hc : pyContains p "functionCall" with
    | exn => exact ⟨rfl, rfl⟩
    | ok b =>
      cases b with
      | false => dsimp only; exact ih
      | true =>
        dsimp only
        cases hs : pySub p "functionCall" with
        | exn => exact ⟨rfl, rfl⟩
        | ok fc =>
          dsimp only
          cases hg : pyGetD fc "name" (PyVal.str "unknown") with
          | exn => exact ⟨rfl, rfl⟩
          | ok nm =>
            dsimp only
            obtain ⟨h2, h1⟩ := ih
            refine ⟨h2, ?_⟩
            simp only [List.map_cons, h1, callView]

theorem entryCalls_irrel (i j : Nat) (a : PyVal) (e : PyVal) :
    (entryCalls i a e).2 = (entryCalls j a e).2 ∧
    (entryCalls i a e).1.map callView = (entryCalls j a e).1.map callView := by
  unfold entryCalls
  cases h1 : pyContains e "content" with
  | exn => exact ⟨rfl, rfl⟩
  | ok b =>
    cases b with
    | false => exact ⟨rfl, rfl⟩
    | true =>
      dsimp only
      cases h2 : pySub e "content" with
      | exn => exact ⟨rfl, rfl⟩
      | ok content =>
        dsimp only
        cases h3 : pyContains content "parts" with
        | exn => exact ⟨rfl, rfl⟩
        | ok b2 =>
          cases b2 with
          | false => exact ⟨rfl, rfl⟩
          | true =>
            dsimp only
            cases h4 : pySub content "parts" with
            | exn => exact ⟨rfl, rfl⟩
            | ok parts =>
              dsimp only
              cases h5 : pyIter parts with
              | exn => exact ⟨rfl, rfl⟩
              | ok elems => dsimp only; exact partsLoop_irrel i j a elems

theorem stepEntry_total (i : Nat) (acc : ConvSummary) (e : PyVal) :
    (stepEntry i acc e).total_entries = acc.total_entries := by
  unfold stepEntry
  cases hga : pyGetD e "author" (PyVal.str "unknown") with
  | exn => rfl
  | ok a =>
    dsimp only
    by_cases hab : (entryCalls i a e).2
    · simp [hab]
    · simp only [hab, Bool.false_eq_true, if_false]
      cases finalGuard a e with
      | exn => rfl
      | ok b => cases b <;> rfl

theorem stepEntry_authors (i : Nat) (acc : ConvSummary) (e : PyVal) :
    (stepEntry i acc e).authors =
      acc.authors ++ (match authorRes e with | some a => [a] | Option.none => []) := by
  unfold stepEntry authorRes
  cases hga : pyGetD e "author" (PyVal.str "unknown") with
  | exn => simp
  | ok a =>
    dsimp only
    by_cases hab : (entryCalls i a e).2
    · simp [hab]
    · simp only [hab, Bool.false_eq_true, if_false]
      cases finalGuard a e with
      | exn => rfl
      | ok b => cases b <;> rfl

theorem stepEntry_flag (i : Nat) (acc : ConvSummary) (e : PyVal) :
    (stepEntry i acc e).final_output_found =
      (acc.final_output_found || entrySetsFlag e) := by
  unfold stepEntry entrySetsFlag authorRes
  cases hga : pyGetD e "author" (PyVal.str "unknown") with
  | exn => simp
  | ok a =>
    dsimp only
    obtain ⟨hsnd, _⟩ := entryCalls_irrel 0 i a e
    by_cases hab : (entryCalls i a e).2
    · rw [hsnd, hab]
      simp [hab]
    · simp only [hab, Bool.false_eq_true, if_false]
      rw [hsnd]
      simp only [hab, Bool.not_false]
      cases hfg : finalGuard a e with
      | exn => simp
      | ok b => cases b <;> simp

theorem stepEntry_calls (i : Nat) (acc : ConvSummary) (e : PyVal) :
    (stepEntry i acc e).agent_calls.map callView =
      acc.agent_calls.map callView ++
        (match authorRes e with
         | some a => (entryCalls 0 a e).1.map callView
         | Option.none => []) := by
  unfold stepEntry authorRes
  cases hga : pyGetD e "author" (PyVal.str "unknown") with
  | exn => simp
  | ok a =>
    dsimp only
    obtain ⟨_, hfst⟩ := entryCalls_irrel i 0 a e
    by_cases hab : (entryCalls i a e).2
    · simp [hab, hfst]
    · simp only [hab, Bool.false_eq_true, if_false]
      cases finalGuard a e with
      | exn => simp [hfst]
      | ok b => cases b <;> simp [hfst]

theorem summarizeLoop_total :
    ∀ (l : List PyVal) (i : Nat) (acc : ConvSummary),
      (summarizeLoop i acc l).total_entries = acc.total_entries := by
  intro l
  induction l with
  | nil => intro i acc; rfl
  | cons e es ih =>
    intro i acc
    simp only [summarizeLoop]
    rw [ih, stepEntry_total]

theorem summarizeLoop_authors :
    ∀ (l : List PyVal) (i : Nat) (acc : ConvSummary),
      (summarizeLoop i acc l).authors = acc.authors ++ authorsSeg l := by
  intro l
  induction l with
  | nil => intro i acc; simp [summarizeLoop, authorsSeg]
  | cons e es ih =>
    intro i acc
    simp only [summarizeLoop]
    rw [ih, stepEntry_authors]
    simp only [authorsSeg, List.filterMap_cons]
    cases authorRes e <;> simp [authorsSeg]

theorem summarizeLoop_flag :
    ∀ (l : List PyVal) (i : Nat) (acc : ConvSummary),
      (summarizeLoop i acc l).final_output_found =
        (acc.final_output_found || flagSeg l) := by
  intro l
  induction l with
  | nil => intro i acc; simp [summarizeLoop, flagSeg]
  | cons e es ih =>
    intro i acc
    simp only [summarizeLoop]
    rw [ih, stepEntry_flag]
    simp [flagSeg, Bool.or_assoc]

theorem summarizeLoop_calls :
    ∀ (l : List PyVal) (i : Nat) (acc : ConvSummary),
      (summarizeLoop i acc l).agent_calls.map callView =
        acc.agent_calls.map callView ++ callsSeg l := by
  intro l
  induction l with
  | nil => intro i acc; simp [summarizeLoop, callsSeg]
  | cons e es ih =>
    intro i acc
    simp only [summarizeLoop]
    rw [ih, stepEntry_calls]
    simp only [callsSeg, List.append_assoc]

theorem summary_total (t : List PyVal) :
    (extract_conversation_summary t).total_entries = t.length := by
  unfold extract_conversation_summary
  rw [summarizeLoop_total]

theorem summary_authors (t : List PyVal) :
    (extract_conversation_summary t).authors = authorsSeg t := by
  unfold extract_conversation_summary
  rw [summarizeLoop_authors]
  simp

theorem summary_flag (t : List PyVal) :
    (extract_conversation_summary t).final_output_found = flagSeg t := by
  unfold extract_conversation_summary
  rw [summarizeLoop_flag]
  simp

theorem summary_calls (t : List PyVal) :
    (extract_conversation_summary t).agent_calls.map callView = callsSeg t := by
  unfold extract_conversation_summary
  rw [summarizeLoop_calls]
  simp

theorem authorRes_nondict {m : PyVal} (h : m.isDict = false) : authorRes m = Option.none := by
  cases m with
  | dict d => simp [PyVal.isDict] at h
  | none => rfl
  | bool b => rfl
  | int n => rfl
  | str s => rfl
  | list xs => rfl

theorem authorsSeg_append (a b : List PyVal) :
    authorsSeg (a ++ b) = authorsSeg a ++ authorsSeg b := by
  simp [authorsSeg]

theorem callsSeg_append (a b : List PyVal) :
    callsSeg (a ++ b) = callsSeg a ++ callsSeg b := by
  induction a with
  | nil => simp [callsSeg]
  | cons e es ih =>
    simp only [List.cons_append, callsSeg, List.append_eq, ih, List.append_assoc]

theorem flagSeg_append (a b : List PyVal) :
    flagSeg (a ++ b) = (flagSeg a || flagSeg b) := by
  simp [flagSeg]

theorem closeSplit_append_close : ∀ xs : List Char,
    closeSplit (xs ++ ('\n' :: '`' :: '`' :: '`' :: [])) = some xs := by
  intro xs
  induction xs with
  | nil => rfl
  | cons x xs ih => simp only [List.cons_append, closeSplit, List.append_eq, ih]

theorem fenceSearch_greedy (c : Char) (hc : isWS c = false) (b1 m b2 : List Char) :
    fenceSearch ('`' :: '`' :: '`' :: 'j' :: 's' :: 'o' :: 'n' :: '\n' :: c ::
        (b1 ++ ('\n' :: '`' :: '`' :: '`' ::
          (m ++ ('`' :: '`' :: '`' :: 'j' :: 's' :: 'o' :: 'n' :: '\n' ::
            (b2 ++ ('\n' :: '`' :: '`' :: '`' :: []))))))) =
      some (c :: (b1 ++ ('\n' :: '`' :: '`' :: '`' ::
        (m ++ ('`' :: '`' :: '`' :: 'j' :: 's' :: 'o' :: 'n' :: '\n' :: b2))))) := by
  have hT : b1 ++ ('\n' :: '`' :: '`' :: '`' ::
      (m ++ ('`' :: '`' :: '`' :: 'j' :: 's' :: 'o' :: 'n' :: '\n' ::
        (b2 ++ ('\n' :: '`' :: '`' :: '`' :: []))))) =
      (b1 ++ ('\n' :: '`' :: '`' :: '`' ::
        (m ++ ('`' :: '`' :: '`' :: 'j' :: 's' :: 'o' :: 'n' :: '\n' :: b2)))) ++
        ('\n' :: '`' :: '`' :: '`' :: []) := by
    simp [List.append_assoc]
  have hcT : (c :: (b1 ++ ('\n' :: '`' :: '`' :: '`' ::
      (m ++ ('`' :: '`' :: '`' :: 'j' :: 's' :: 'o' :: 'n' :: '\n' ::
        (b2 ++ ('\n' :: '`' :: '`' :: '`' :: []))))))) =
      (c :: (b1 ++ ('\n' :: '`' :: '`' :: '`' ::
        (m ++ ('`' :: '`' :: '`' :: 'j' :: 's' :: 'o' :: 'n' :: '\n' :: b2))))) ++
        ('\n' :: '`' :: '`' :: '`' :: []) := by
    rw [List.cons_append, hT]
  have hclose : closeSplit (c :: (b1 ++ ('\n' :: '`' :: '`' :: '`' ::
      (m ++ ('`' :: '`' :: '`' :: 'j' :: 's' :: 'o' :: 'n' :: '\n' ::
        (b2 ++ ('\n' :: '`' :: '`' :: '`' :: []))))))) =
      some (c :: (b1 ++ ('\n' :: '`' :: '`' :: '`' ::
        (m ++ ('`' :: '`' :: '`' :: 'j' :: 's' :: 'o' :: 'n' :: '\n' :: b2))))) := by
    rw [hcT, closeSplit_append_close]
  have hcount : countWS ('\n' :: c :: (b1 ++ ('\n' :: '`' :: '`' :: '`' ::
      (m ++ ('`' :: '`' :: '`' :: 'j' :: 's' :: 'o' :: 'n' :: '\n' ::
        (b2 ++ ('\n' :: '`' :: '`' :: '`' :: []))))))) = 1 := by
    have hnl : isWS '\n' = true := rfl
    simp [countWS, hnl, hc]
  have hcand : fenceCandidates ('\n' :: c :: (b1 ++ ('\n' :: '`' :: '`' :: '`' ::
      (m ++ ('`' :: '`' :: '`' :: 'j' :: 's' :: 'o' :: 'n' :: '\n' ::
        (b2 ++ ('\n' :: '`' :: '`' :: '`' :: []))))))) = [0] := by
    unfold fenceCandidates
    rw [hcount]
    have hr1 : List.range 1 = [0] := rfl
    rw [hr1]
    simp only [List.filter, List.drop, List.get?, hclose]
    rfl
  have hmatch : matchFenceSuffix ('`' :: '`' :: '`' :: 'j' :: 's' :: 'o' :: 'n' :: '\n' :: c ::
      (b1 ++ ('\n' :: '`' :: '`' :: '`' ::
        (m ++ ('`' :: '`' :: '`' :: 'j' :: 's' :: 'o' :: 'n' :: '\n' ::
          (b2 ++ ('\n' :: '`' :: '`' :: '`' :: []))))))) =
      some (c :: (b1 ++ ('\n' :: '`' :: '`' :: '`' ::
        (m ++ ('`' :: '`' :: '`' :: 'j' :: 's' :: 'o' :: 'n' :: '\n' :: b2))))) := by
    have hpre : List.isPrefixOf ("```json".data)
        ('`' :: '`' :: '`' :: 'j' :: 's' :: 'o' :: 'n' :: '\n' :: c ::
          (b1 ++ ('\n' :: '`' :: '`' :: '`' ::
            (m ++ ('`' :: '`' :: '`' :: 'j' :: 's' :: 'o' :: 'n' :: '\n' ::
              (b2 ++ ('\n' :: '`' :: '`' :: '`' :: []))))))) = true := by
      rw [show ("```json".data) = '`' :: '`' :: '`' :: 'j' :: 's' :: 'o' :: 'n' :: ([] : List Char)
        from rfl]
      simp [List.isPrefixOf]
    unfold matchFenceSuffix
    rw [hpre]
    simp only [if_true, List.drop, hcand, List.getLast?_singleton]
    exact hclose
  simp only [fenceSearch, hmatch]

theorem resolvedValue_append_none {k : String} {a : List PyVal}
    (h : ∀ e ∈ a, providesValue e k = Option.none) (rest : List PyVal) :
    resolvedValue k (a ++ rest) = resolvedValue k rest := by
  induction a with
  | nil => rfl
  | cons e es ih =>
    have he : providesValue e k = Option.none := h e (by simp)
    simp only [List.cons_append, resolvedValue, he]
    exact ih (fun y hy => h y (by simp [hy]))

theorem resolved_none_of_all {k : String} {t : List PyVal}
    (h : ∀ e ∈ t, providesValue e k = Option.none) :
    resolvedValue k t = PyVal.none := by
  have := resolvedValue_append_none h ([] : List PyVal)
  simpa using this

theorem decodedMatch_nondict {m : PyVal} (h : m.isDict = false) :
    decodedMatch m = Option.none := by
  cases m with
  | dict d => simp [PyVal.isDict] at h
  | none => rfl
  | bool b => rfl
  | int n => rfl
  | str s => rfl
  | list xs => rfl

theorem targetedDecode_nonstr {raw : PyVal} (h : raw.isStr = false) :
    targetedDecode raw = .exn := by
  cases raw with
  | str s => simp [PyVal.isStr] at h
  | none => rfl
  | bool b => rfl
  | int n => rfl
  | list xs => rfl
  | dict d => rfl

theorem decodeAggregate_nonstr {raw : PyVal} (h : raw.isStr = false) :
    decodeAggregate raw = raw := by
  cases raw with
  | str s => simp [PyVal.isStr] at h
  | none => rfl
  | bool b => rfl
  | int n => rfl
  | list xs => rfl
  | dict d => rfl

theorem decodeAggregate_fail {s : String}
    (h : fenceSearch s.data = Option.none ∨
      (∃ g, fenceSearch s.data = some g ∧ jsonLoads (stripChars g) = Option.none)) :
    decodeAggregate (PyVal.str s) = PyVal.str s := by
  rcases h with hf | ⟨g, hg, hj⟩
  · simp only [decodeAggregate, hf]
  · simp only [decodeAggregate, hg, hj]

theorem mem_outputKeys_fco : "financial_coordinator_output" ∈ outputKeys := by decide

/-- C1, counterexample: a trace whose most recent matching event carries plain
text with no fenced block.  The claim requires the extractor to return absent
without falling back; the code falls back to the earlier matching event and
returns its decoded payload. -/
theorem c1_counterexample :
    fcRaw (mkFCEvent "no fence here") = some (PyVal.str "no fence here") ∧
    fenceSearch ("no fence here".data) = Option.none ∧
    extract_financial_coordinator_output
      [mkFCEvent "```json\n[1]\n```", mkFCEvent "no fence here"] =
      some (PyVal.list [PyVal.int 1]) := by
  refine ⟨by decide, by decide, by decide⟩

/-- C1 (amended): the targeted extractor scans most-recent-first and returns
the decoded value of the first (most recent) entry that both passes the
author/stateDelta guard and decodes successfully; entries whose decode fails
are skipped in favour of earlier ones, and absent is returned exactly when no
entry decodes. -/
theorem c1_amended_most_recent_decodable (t : List PyVal) :
    (∀ v : PyVal, extract_financial_coordinator_output t = some v ↔
      ∃ t1 e t2, t = t1 ++ e :: t2 ∧ decodedMatch e = some v ∧
        ∀ y ∈ t2, decodedMatch y = Option.none) ∧
    (extract_financial_coordinator_output t = Option.none ↔
      ∀ e ∈ t, decodedMatch e = Option.none) :=
  ⟨fun v => extractFC_some_iff t v, extractFC_none_iff t⟩

/-- C2, counterexample: on a text value holding two fenced blocks the capture
group runs from the first opening marker to the last closing marker, spanning
both blocks; it is not the body of the first block, and the spanning capture
fails to parse. -/
theorem c2_counterexample :
    fenceSearch ("```json\n[1]\n```\nm\n```json\n[2]\n```".data) =
      some ("[1]\n```\nm\n```json\n[2]".data) ∧
    ("[1]\n```\nm\n```json\n[2]".data ≠ "[1]".data) ∧
    jsonLoads (stripChars ("[1]\n```\nm\n```json\n[2]".data)) = Option.none := by
  refine ⟨by decide, by decide, by decide⟩

/-- C2 (amended): the shared fenced-JSON search is greedy — for a text value
made of a first fenced block, intermediate text, and a second fenced block,
the capture runs from just after the first opening marker to the last closing
marker in the text, so it spans the first body, the first closing fence, the
intermediate text, the second opening fence and the second body. -/
theorem c2_amended_greedy_capture (c : Char) (hc : isWS c = false) (b1 m b2 : List Char) :
    fenceSearch (("```json\n".data) ++ ((c :: b1) ++ (("\n```".data) ++
        (m ++ (("```json\n".data) ++ (b2 ++ ("\n```".data))))))) =
      some ((c :: b1) ++ (("\n```".data) ++ (m ++ (("```json\n".data) ++ b2)))) :=
  fenceSearch_greedy c hc b1 m b2

theorem c2_witness :
    isWS '[' = false ∧
    fenceSearch (("```json\n".data) ++ (('[' :: "1]".data) ++ (("\n```".data) ++
        (("\nm\n".data) ++ (("```json\n".data) ++ (("[2]".data) ++ ("\n```".data))))))) =
      some (('[' :: "1]".data) ++ (("\n```".data) ++ (("\nm\n".data) ++
        (("```json\n".data) ++ ("[2]".data))))) :=
  ⟨by decide, c2_amended_greedy_capture '[' (by decide) ("1]".data) ("\nm\n".data) ("[2]".data)⟩

/-- C3, counterexample: an event that stores Python `None` under a registry
key does resolve the key (a value is stored), yet a later event overwrites
it — the `is None` guard cannot tell a stored `None` from an untouched key, so
the returned value comes from the second event, not the first one that
resolved the key. -/
theorem c3_counterexample :
    providesValue (mkAgentEvent "a1" "data_analyst_output" PyVal.none)
      "data_analyst_output" = some PyVal.none ∧
    dictLookup
      (extract_all_agent_outputs
        [mkAgentEvent "a1" "data_analyst_output" PyVal.none,
         mkAgentEvent "a2" "data_analyst_output" (PyVal.str "later")])
      "data_analyst_output" = some (PyVal.str "later") := by
  refine ⟨by decide, by decide⟩

/-- C3 (amended): for every registered key, the aggregate extractor returns
the decoded value of the first chronological event that stores a non-`None`
decoded value under that key; events that store `None` leave the key open to
later overwrites, and a key never resolved to a non-`None` value comes back
`None`. -/
theorem c3_amended_first_nonnull_wins (t : List PyVal) (k : String)
    (hk : k ∈ outputKeys) :
    dictLookup (extract_all_agent_outputs t) k = some (resolvedValue k t) :=
  agg_lookup_resolved hk t

theorem c3_witness :
    "data_analyst_output" ∈ outputKeys ∧
    dictLookup
      (extract_all_agent_outputs [mkAgentEvent "a1" "data_analyst_output" (PyVal.str "v")])
      "data_analyst_output" =
      some (resolvedValue "data_analyst_output"
        [mkAgentEvent "a1" "data_analyst_output" (PyVal.str "v")]) :=
  ⟨by decide,
   c3_amended_first_nonnull_wins
     [mkAgentEvent "a1" "data_analyst_output" (PyVal.str "v")]
     "data_analyst_output" (by decide)⟩

/-- C4, counterexample: a trace with exactly two events matching
`(financial_coordinator, financial_coordinator_output)` — but preceded by a
different-authored event that also carries the key.  The targeted extractor
returns the later matching payload as the claim says, but the aggregate
extractor (which never inspects the author) returns the stranger's earlier
payload, not the earlier matching event's payload. -/
theorem c4_counterexample :
    fcRaw (mkAgentEvent "other" "financial_coordinator_output"
      (PyVal.str "```json\n[1]\n```")) = Option.none ∧
    extract_financial_coordinator_output
      [mkAgentEvent "other" "financial_coordinator_output" (PyVal.str "```json\n[1]\n```"),
       mkFCEvent "```json\n[2]\n```", mkFCEvent "```json\n[3]\n```"] =
      some (PyVal.list [PyVal.int 3]) ∧
    dictLookup
      (extract_all_agent_outputs
        [mkAgentEvent "other" "financial_coordinator_output" (PyVal.str "```json\n[1]\n```"),
         mkFCEvent "```json\n[2]\n```", mkFCEvent "```json\n[3]\n```"])
      "financial_coordinator_output" = some (PyVal.list [PyVal.int 1]) ∧
    PyVal.list [PyVal.int 1] ≠ PyVal.list [PyVal.int 2] := by
  refine ⟨by decide, by decide, by decide, by decide⟩

/-- C4 (amended): when the only events of the trace that touch the
coordinator output key are the two matching ones, the targeted extractor
returns the later (more recent) decoded payload and the aggregate extractor
the earlier one. -/
theorem c4_amended_later_vs_earlier (t0 t1 t2 : List PyVal) (e1 e2 v1 v2 : PyVal)
    (h1t : decodedMatch e1 = some v1) (h2t : decodedMatch e2 = some v2)
    (h1a : providesValue e1 "financial_coordinator_output" = some v1)
    (hv1 : v1 ≠ PyVal.none)
    (hrest : ∀ e ∈ t0 ++ t1 ++ t2, decodedMatch e = Option.none ∧
      providesValue e "financial_coordinator_output" = Option.none) :
    extract_financial_coordinator_output (t0 ++ e1 :: (t1 ++ e2 :: t2)) = some v2 ∧
    dictLookup (extract_all_agent_outputs (t0 ++ e1 :: (t1 ++ e2 :: t2)))
      "financial_coordinator_output" = some v1 := by
  constructor
  · rw [extractFC_some_iff]
    refine ⟨t0 ++ e1 :: t1, e2, t2, by simp, h2t, ?_⟩
    intro y hy
    exact (hrest y (by simp [hy])).1
  · rw [agg_lookup_resolved mem_outputKeys_fco]
    have ht0 : ∀ e ∈ t0, providesValue e "financial_coordinator_output" = Option.none :=
      fun e he => (hrest e (by simp [he])).2
    rw [resolvedValue_append_none ht0]
    simp only [resolvedValue, h1a, hv1, if_false]

theorem c4_witness :
    extract_financial_coordinator_output
      [mkFCEvent "```json\n[2]\n```", mkFCEvent "```json\n[3]\n```"] =
      some (PyVal.list [PyVal.int 3]) ∧
    dictLookup
      (extract_all_agent_outputs
        [mkFCEvent "```json\n[2]\n```", mkFCEvent "```json\n[3]\n```"])
      "financial_coordinator_output" = some (PyVal.list [PyVal.int 2]) :=
  c4_amended_later_vs_earlier [] [] []
    (mkFCEvent "```json\n[2]\n```") (mkFCEvent "```json\n[3]\n```")
    (PyVal.list [PyVal.int 2]) (PyVal.list [PyVal.int 3])
    (by decide) (by decide) (by decide) (by decide)
    (by intro e he; simp at he)

/-- C5: for every list input the aggregate extractor returns the full
registry — the returned mapping's keys are exactly the registry keys in
order (so the catch-all empty mapping is never produced; the embedding of the
function is total and its result always carries all five keys), and a key no
event resolves is present with value `None`. -/
theorem c5_complete_mapping :
    (∀ t : List PyVal, (extract_all_agent_outputs t).map Prod.fst = outputKeys) ∧
    (∀ (t : List PyVal) (k : String), k ∈ outputKeys →
      (∀ e ∈ t, providesValue e k = Option.none) →
      dictLookup (extract_all_agent_outputs t) k = some PyVal.none) := by
  constructor
  · exact fst_extract_all
  · intro t k hk hall
    rw [agg_lookup_resolved hk, resolved_none_of_all hall]

theorem c5_witness :
    (extract_all_agent_outputs [PyVal.str "x"]).map Prod.fst = outputKeys ∧
    ("risk_analyst_output" ∈ outputKeys ∧
      dictLookup (extract_all_agent_outputs [PyVal.str "x"]) "risk_analyst_output" =
        some PyVal.none) :=
  ⟨c5_complete_mapping.1 [PyVal.str "x"],
   by decide,
   c5_complete_mapping.2 [PyVal.str "x"] "risk_analyst_output" (by decide)
     (by intro e he; simp at he; subst he; decide)⟩

/-- C6: decode-failure handling.  A matching event whose value is text with
no fenced block makes the targeted extractor yield absent (when no other
event decodes); the aggregate extractor stores the raw text unchanged both
when no fence is present and when a fence is present but its JSON payload is
malformed. -/
theorem c6_decode_failure :
    (∀ (t0 t1 : List PyVal) (e : PyVal) (s : String),
      fcRaw e = some (PyVal.str s) → fenceSearch s.data = Option.none →
      (∀ y ∈ t0 ++ t1, decodedMatch y = Option.none) →
      extract_financial_coordinator_output (t0 ++ e :: t1) = Option.none) ∧
    (∀ (t0 t1 : List PyVal) (e : PyVal) (d : List (String × PyVal)) (k s : String),
      k ∈ outputKeys → eventSD e = some (PyVal.dict d) →
      dictLookup d k = some (PyVal.str s) →
      (fenceSearch s.data = Option.none ∨
        (∃ g, fenceSearch s.data = some g ∧ jsonLoads (stripChars g) = Option.none)) →
      (∀ y ∈ t0, providesValue y k = Option.none) →
      dictLookup (extract_all_agent_outputs (t0 ++ e :: t1)) k = some (PyVal.str s)) := by
  constructor
  · intro t0 t1 e s hraw hfence hrest
    rw [extractFC_none_iff]
    intro y hy
    rcases List.mem_append.mp hy with hy0 | hy1
    · exact hrest y (by simp [hy0])
    · rcases List.mem_cons.mp hy1 with rfl | hy2
      · unfold decodedMatch
        rw [processEntry_eq_targetedDecode hraw]
        simp [targetedDecode, hfence]
      · exact hrest y (by simp [hy2])
  · intro t0 t1 e d k s hk hsd hd hfail ht0
    rw [agg_lookup_resolved hk, resolvedValue_append_none ht0]
    have hprov : providesValue e k = some (PyVal.str s) := by
      unfold providesValue
      rw [hsd]
      dsimp only
      rw [hd]
      dsimp only
      rw [decodeAggregate_fail hfail]
    simp only [resolvedValue, hprov]
    rfl

theorem c6_witness :
    extract_financial_coordinator_output [mkFCEvent "plain text"] = Option.none ∧
    dictLookup
      (extract_all_agent_outputs [mkAgentEvent "a" "data_analyst_output" (PyVal.str "plain text")])
      "data_analyst_output" = some (PyVal.str "plain text") ∧
    dictLookup
      (extract_all_agent_outputs
        [mkAgentEvent "a" "data_analyst_output" (PyVal.str "```json\n[1,\n```")])
      "data_analyst_output" = some (PyVal.str "```json\n[1,\n```") :=
  ⟨c6_decode_failure.1 [] [] (mkFCEvent "plain text") "plain text"
     (by decide) (by decide) (by intro y hy; simp at hy),
   c6_decode_failure.2 [] [] (mkAgentEvent "a" "data_analyst_output" (PyVal.str "plain text"))
     [("data_analyst_output", PyVal.str "plain text")] "data_analyst_output" "plain text"
     (by decide) (by decide) (by decide) (Or.inl (by decide))
     (by intro y hy; simp at hy),
   c6_decode_failure.2 [] []
     (mkAgentEvent "a" "data_analyst_output" (PyVal.str "```json\n[1,\n```"))
     [("data_analyst_output", PyVal.str "```json\n[1,\n```")] "data_analyst_output"
     "```json\n[1,\n```"
     (by decide) (by decide) (by decide)
     (Or.inr ⟨"[1,".data, by decide, by decide⟩)
     (by intro y hy; simp at hy)⟩

/-- C7, counterexample: a matching event whose stored value is already
structured (a dict).  The claim requires the targeted extractor to return the
value unchanged; the code hands the non-text value to `re.search`, which
raises `TypeError`, so the entry is skipped and the extractor returns absent. -/
theorem c7_counterexample :
    fcRaw (mkAgentEvent "financial_coordinator" "financial_coordinator_output"
      (PyVal.dict [("x", PyVal.int 1)])) =
      some (PyVal.dict [("x", PyVal.int 1)]) ∧
    extract_financial_coordinator_output
      [mkAgentEvent "financial_coordinator" "financial_coordinator_output"
        (PyVal.dict [("x", PyVal.int 1)])] = Option.none := by
  refine ⟨by decide, by decide⟩

/-- C7 (amended): the aggregate extractor does store a non-text value as-is,
but the targeted extractor does not return it — the `re.search` on a non-text
value raises, the entry is skipped, and the scan proceeds exactly as if the
entry were not in the trace. -/
theorem c7_amended_nontext (t0 t1 : List PyVal) :
    (∀ (e raw : PyVal), fcRaw e = some raw → raw.isStr = false →
      extract_financial_coordinator_output (t0 ++ e :: t1) =
        extract_financial_coordinator_output (t0 ++ t1)) ∧
    (∀ (e : PyVal) (d : List (String × PyVal)) (k : String) (raw : PyVal),
      k ∈ outputKeys → eventSD e = some (PyVal.dict d) → dictLookup d k = some raw →
      raw.isStr = false →
      (∀ y ∈ t0, providesValue y k = Option.none) →
      (∀ y ∈ t1, providesValue y k = Option.none) →
      dictLookup (extract_all_agent_outputs (t0 ++ e :: t1)) k = some raw) := by
  constructor
  · intro e raw hraw hstr
    have hdm : decodedMatch e = Option.none := by
      unfold decodedMatch
      rw [processEntry_eq_targetedDecode hraw, targetedDecode_nonstr hstr]
    exact extractFC_skip hdm t0 t1
  · intro e d k raw hk hsd hd hstr ht0 ht1
    rw [agg_lookup_resolved hk, resolvedValue_append_none ht0]
    have hprov : providesValue e k = some raw := by
      unfold providesValue
      rw [hsd]
      dsimp only
      rw [hd]
      dsimp only
      rw [decodeAggregate_nonstr hstr]
    simp only [resolvedValue, hprov]
    by_cases hr : raw = PyVal.none
    · subst hr
      simp [resolved_none_of_all ht1]
    · simp [hr]

theorem c7_witness :
    extract_financial_coordinator_output
      [mkFCEvent "```json\n[7]\n```",
       mkAgentEvent "financial_coordinator" "financial_coordinator_output"
         (PyVal.dict [("x", PyVal.int 1)])] =
      some (PyVal.list [PyVal.int 7]) ∧
    dictLookup
      (extract_all_agent_outputs
        [mkAgentEvent "a" "trading_analyst_output" (PyVal.dict [("x", PyVal.int 1)])])
      "trading_analyst_output" = some (PyVal.dict [("x", PyVal.int 1)]) := by
  constructor
  · have h := (c7_amended_nontext [mkFCEvent "```json\n[7]\n```"] []).1
      (mkAgentEvent "financial_coordinator" "financial_coordinator_output"
        (PyVal.dict [("x", PyVal.int 1)]))
      (PyVal.dict [("x", PyVal.int 1)]) (by decide) (by decide)
    simp only [List.cons_append, List.nil_append, List.append_nil] at h
    rw [h]
    decide
  · exact (c7_amended_nontext [] []).2
      (mkAgentEvent "a" "trading_analyst_output" (PyVal.dict [("x", PyVal.int 1)]))
      [("trading_analyst_output", PyVal.dict [("x", PyVal.int 1)])]
      "trading_analyst_output" (PyVal.dict [("x", PyVal.int 1)])
      (by decide) (by decide) (by decide) (by decide)
      (by intro y hy; simp at hy) (by intro y hy; simp at hy)

/-- C8: a malformed entry (one that is not a mapping, so every field access
on it raises) anywhere in the trace is skipped by all three operations
without aborting the scan: both extractors return exactly what they return
on the trace with the entry removed, and the summary still counts the entry,
records the same authors, the same final-output flag and the same call
records (indices aside) as the trace without it.  The three operations are
total functions of the trace — every raise of the embedded primitives is
absorbed by the translated `except` branches, so none of them propagates an
exception for any list input. -/
theorem c8_malformed_skipped (a b : List PyVal) (m : PyVal) (hm : m.isDict = false) :
    extract_financial_coordinator_output (a ++ m :: b) =
      extract_financial_coordinator_output (a ++ b) ∧
    extract_all_agent_outputs (a ++ m :: b) = extract_all_agent_outputs (a ++ b) ∧
    (extract_conversation_summary (a ++ m :: b)).total_entries = (a ++ b).length + 1 ∧
    (extract_conversation_summary (a ++ m :: b)).authors =
      (extract_conversation_summary (a ++ b)).authors ∧
    (extract_conversation_summary (a ++ m :: b)).final_output_found =
      (extract_conversation_summary (a ++ b)).final_output_found ∧
    (extract_conversation_summary (a ++ m :: b)).agent_calls.map callView =
      (extract_conversation_summary (a ++ b)).agent_calls.map callView := by
  have har : authorRes m = Option.none := authorRes_nondict hm
  refine ⟨extractFC_skip (decodedMatch_nondict hm) a b,
    extractAll_skip (eventSD_nondict hm) a b, ?_, ?_, ?_, ?_⟩
  · rw [summary_total]
    simp [List.length_append]
    omega
  · rw [summary_authors, summary_authors, authorsSeg_append, authorsSeg_append]
    simp [authorsSeg, List.filterMap_cons, har]
  · rw [summary_flag, summary_flag, flagSeg_append, flagSeg_append]
    have hf : flagSeg (m :: b) = flagSeg b := by
      simp [flagSeg, entrySetsFlag, har]
    rw [hf]
  · rw [summary_calls, summary_calls, callsSeg_append, callsSeg_append]
    have hc : callsSeg (m :: b) = callsSeg b := by
      simp [callsSeg, har]
    rw [hc]

theorem c8_witness :
    PyVal.isStr (PyVal.str "oops") = true ∧
    extract_financial_coordinator_output
      [PyVal.str "oops", mkFCEvent "```json\n[8]\n```"] =
      extract_financial_coordinator_output [mkFCEvent "```json\n[8]\n```"] ∧
    extract_all_agent_outputs [PyVal.str "oops", mkFCEvent "```json\n[8]\n```"] =
      extract_all_agent_outputs [mkFCEvent "```json\n[8]\n```"] ∧
    (extract_conversation_summary [PyVal.str "oops", mkFCEvent "```json\n[8]\n```"]).authors =
      (extract_conversation_summary [mkFCEvent "```json\n[8]\n```"]).authors ∧
    (extract_conversation_summary [PyVal.str "oops", mkFCEvent "```json\n[8]\n```"]).final_output_found =
      (extract_conversation_summary [mkFCEvent "```json\n[8]\n```"]).final_output_found := by
  have h := c8_malformed_skipped [] [mkFCEvent "```json\n[8]\n```"] (PyVal.str "oops") (by decide)
  simp only [List.nil_append] at h
  exact ⟨by decide, h.1, h.2.1, h.2.2.2.1, h.2.2.2.2.1⟩

/-- C9, counterexample context is deliberate domain narrowing: for traces of
event records (mappings, possibly with any field absent or ill-shaped) the
summary records exactly one author entry per event — the event's `author`
value, or the `"unknown"` sentinel when the field is absent — so the authors
list has exactly `total_entries` elements in trace order. -/
theorem c9_one_author_per_event (t : List PyVal) (ht : ∀ e ∈ t, e.isDict = true) :
    (extract_conversation_summary t).total_entries = t.length ∧
    (extract_conversation_summary t).authors = t.map authorView ∧
    (extract_conversation_summary t).authors.length =
      (extract_conversation_summary t).total_entries := by
  have hseg : ∀ (l : List PyVal), (∀ e ∈ l, e.isDict = true) →
      authorsSeg l = l.map authorView := by
    intro l
    induction l with
    | nil => intro _; rfl
    | cons e es ih =>
      intro hl
      have he : e.isDict = true := hl e (by simp)
      have har : authorRes e = some (authorView e) := by
        cases e with
        | dict d => rfl
        | none => simp [PyVal.isDict] at he
        | bool bb => simp [PyVal.isDict] at he
        | int n => simp [PyVal.isDict] at he
        | str s => simp [PyVal.isDict] at he
        | list xs => simp [PyVal.isDict] at he
      have ih2 := ih (fun y hy => hl y (by simp [hy]))
      simp only [authorsSeg, List.filterMap_cons, har, List.map_cons] at ih2 ⊢
      rw [ih2]
  have h2 := hseg t ht
  refine ⟨summary_total t, by rw [summary_authors, h2], ?_⟩
  rw [summary_total, summary_authors, h2, List.length_map]

theorem c9_witness :
    (∀ e ∈ [mkFCEvent "x", PyVal.dict [("a", PyVal.int 1)]], e.isDict = true) ∧
    (extract_conversation_summary [mkFCEvent "x", PyVal.dict [("a", PyVal.int 1)]]).authors =
      [PyVal.str "financial_coordinator", PyVal.str "unknown"] := by
  have h := c9_one_author_per_event [mkFCEvent "x", PyVal.dict [("a", PyVal.int 1)]]
    (by intro e he; fin_cases he <;> decide)
  refine ⟨by intro e he; fin_cases he <;> decide, ?_⟩
  rw [h.2.1]
  decide

theorem dictLookup_filter_registry {k : String} (hk : k ∈ outputKeys) :
    ∀ d : List (String × PyVal),
      dictLookup (d.filter (fun p => outputKeys.contains p.1)) k = dictLookup d k := by
  intro d
  induction d with
  | nil => rfl
  | cons p d ih =>
    obtain ⟨k0, v⟩ := p
    by_cases h0 : k0 = k
    · subst h0
      have hc : outputKeys.contains k0 = true := List.elem_eq_true_of_mem hk
      simp [List.filter_cons, hc, hk, dictLookup]
    · cases hc : outputKeys.contains k0
      · simp only [List.filter_cons, hc, Bool.false_eq_true, if_false, ih, dictLookup]
        simp [h0]
      · simp only [List.filter_cons, hc, if_true, dictLookup, h0, if_false]
        exact ih

theorem updateKeys_restrictSD (sd : PyVal) :
    ∀ (ks : List String), (∀ x ∈ ks, x ∈ outputKeys) →
      ∀ st : List (String × PyVal),
        updateKeys (restrictSD sd) ks st = updateKeys sd ks st := by
  cases sd with
  | dict d =>
    intro ks
    induction ks with
    | nil => intro _ st; rfl
    | cons k0 ks ih =>
      intro hsub st
      have hk0 : k0 ∈ outputKeys := hsub k0 (by simp)
      have hsub' : ∀ x ∈ ks, x ∈ outputKeys := fun x hx => hsub x (by simp [hx])
      have hl := dictLookup_filter_registry hk0 d
      cases hld : dictLookup d k0 with
      | none =>
        rw [hld] at hl
        simp only [restrictSD, updateKeys, pyContains, hl, hld, Option.isSome_none]
        exact ih hsub' st
      | some raw =>
        rw [hld] at hl
        simp only [restrictSD, updateKeys, pyContains, hl, hld, Option.isSome_some]
        by_cases hst : dictLookup st k0 = some PyVal.none
        · simp only [hst, if_true, pySub, hl, hld]
          exact ih hsub' _
        · simp only [hst, if_false]
          exact ih hsub' st
  | none => intro ks _ st; rfl
  | bool b => intro ks _ st; rfl
  | int n => intro ks _ st; rfl
  | str s => intro ks _ st; rfl
  | list xs => intro ks _ st; rfl

theorem processEntryAll_restrict (st : List (String × PyVal)) (e : PyVal) :
    processEntryAll st (restrictEvent e) = processEntryAll st e := by
  cases e with
  | none => rfl
  | bool b => rfl
  | int n => rfl
  | str s => rfl
  | list xs => rfl
  | dict d =>
    cases h1 : dictLookup d "actions" with
    | none => simp only [restrictEvent, h1]
    | some v =>
      cases v with
      | dict a =>
        cases h2 : dictLookup a "stateDelta" with
        | none => simp only [restrictEvent, h1, h2]
        | some sd =>
          have hA : dictLookup
              (stSet d "actions" (PyVal.dict (stSet a "stateDelta" (restrictSD sd))))
              "actions" = some (PyVal.dict (stSet a "stateDelta" (restrictSD sd))) := by
            rw [lookup_stSet_self, h1]
            rfl
          have hS : dictLookup (stSet a "stateDelta" (restrictSD sd)) "stateDelta" =
              some (restrictSD sd) := by
            rw [lookup_stSet_self, h2]
            rfl
          have he1 : eventSD (PyVal.dict d) = some sd := by
            simp only [eventSD, pyContains, pySub, h1, h2, Option.isSome_some]
          have he2 : eventSD (restrictEvent (PyVal.dict d)) = some (restrictSD sd) := by
            simp only [restrictEvent, h1, h2, eventSD, pyContains, pySub, hA, hS,
              Option.isSome_some]
          rw [show restrictEvent (PyVal.dict d) = PyVal.dict
              (stSet d "actions" (PyVal.dict (stSet a "stateDelta" (restrictSD sd)))) by
            simp only [restrictEvent, h1, h2]] at he2
          simp only [processEntryAll, restrictEvent, h1, h2, he2, he1]
          exact updateKeys_restrictSD sd outputKeys (fun x hx => hx) st
      | none => simp only [restrictEvent, h1]
      | bool b => simp only [restrictEvent, h1]
      | int n => simp only [restrictEvent, h1]
      | str s => simp only [restrictEvent, h1]
      | list xs => simp only [restrictEvent, h1]

theorem extract_all_restrict (t : List PyVal) :
    extract_all_agent_outputs (t.map restrictEvent) = extract_all_agent_outputs t := by
  unfold extract_all_agent_outputs
  have hgen : ∀ (l : List PyVal) (st : List (String × PyVal)),
      (l.map restrictEvent).foldl processEntryAll st = l.foldl processEntryAll st := by
    intro l
    induction l with
    | nil => intro st; rfl
    | cons e es ih =>
      intro st
      simp only [List.map_cons, List.foldl_cons, processEntryAll_restrict]
      exact ih _
  exact hgen t initOutputs

/-- C10: the aggregate extractor has no registry parameter — its registry is
the fixed five-key list — the returned mapping's key set is exactly those five
keys for every list input, and replacing every event's `stateDelta` by its
restriction to the registry keys never changes the result, so no other
`stateDelta` key is ever examined or reported. -/
theorem c10_fixed_registry :
    outputKeys = ["data_analyst_output", "trading_analyst_output", "risk_analyst_output",
      "execution_analyst_output", "financial_coordinator_output"] ∧
    (∀ t : List PyVal, (extract_all_agent_outputs t).map Prod.fst = outputKeys) ∧
    (∀ t : List PyVal, extract_all_agent_outputs (t.map restrictEvent) =
      extract_all_agent_outputs t) :=
  ⟨rfl, fst_extract_all, extract_all_restrict⟩
